import Mathlib

/-!
Verification of the round coordination, coverage tracking, dispatch and
score-to-weight pipeline of src/src/zangief/validator/validator.py.

The Python module is shallowly embedded below.  Python dicts that are
persisted to the weights file (keyed by str(uid), with int uids, so the
keying is injective) are embedded as association lists with Nat keys,
preserving insertion order exactly as CPython dicts do.  Floating point
scores are embedded as rationals.  External collaborators (the network
client, the reward model, the chain vote call) enter as parameters.
-/

set_option linter.unusedVariables false

deriving instance DecidableEq for Except

/-- A record of the durable weights file: validator.py line 391 writes
one entry per miner uid of the shape x7b ss58, score x7d. -/
structure ScoreRecord where
  ss58 : String
  score : ℚ
deriving DecidableEq, Repr

/-- One entry of the directory snapshot handed to the validator: uid and
key as used by get_miners_to_query (lines 267-279), address as used by
split_ip_port (line 232), and the two eligibility signals incentive and
dividends used by get_miner_ip_port (lines 54-58). -/
structure Miner where
  uid : Nat
  key : String
  address : String
  incentive : ℚ
  dividends : ℚ
deriving DecidableEq, Repr

/-- The content of the durable weights.json file: a Python dict keyed by
str(uid), embedded as an insertion-ordered association list. -/
abbrev Store := List (Nat × ScoreRecord)

/-- Python dict lookup d[u] on an association list (first match; the
lists we build have unique keys, as dicts do). -/
def alookup {α : Type} : List (Nat × α) → Nat → Option α
  | [], _ => none
  | p :: t, u => if p.1 = u then some p.2 else alookup t u

/-- Python del d[u] (validator.py line 272): removes the entry keyed u. -/
def eraseStore (st : Store) (u : Nat) : Store :=
  st.filter fun p => p.1 != u

/-- Python dict assignment d[u] = r (validator.py line 395): overwrites
in place when the key is present, appends otherwise. -/
def storeInsert (st : Store) (u : Nat) (r : ScoreRecord) : Store :=
  match alookup st u with
  | some _ => st.map fun p => if p.1 = u then (u, r) else p
  | none => st ++ [(u, r)]

/-- validator.py lines 268-275: a miner is covered when the store holds a
record for its uid whose stored ss58 equals the current key. -/
def isCovered (store : Store) (m : Miner) : Bool :=
  match alookup store m.uid with
  | some rec => decide (m.key = rec.ss58)
  | none => false

/-- validator.py line 269: a stored record is stale when it exists for
the uid but its ss58 differs from the current key. -/
def isStale (store : Store) (m : Miner) : Bool :=
  match alookup store m.uid with
  | some rec => decide (m.key ≠ rec.ss58)
  | none => false

/-- get_miner_ip_port, validator.py lines 45-60: keep a module when
incentive == dividends == 0 or incentive > dividends. -/
def get_miner_ip_port (modules : List Miner) : List Miner :=
  modules.filter fun m =>
    decide ((m.incentive = m.dividends ∧ m.dividends = 0) ∨ m.dividends < m.incentive)

/-- The candidate set of a snapshot against a store: the miners without a
current matching record (the ones get_miners_to_query may append to
miners_to_query). -/
def candidates (store : Store) (miners : List Miner) : List Miner :=
  miners.filter fun m => !(isCovered store m)

/-- The triple returned by get_miners_to_query together with the final
state of the weights file it may have rewritten through the deletions of
lines 270-273. -/
structure QueryResult where
  remaining : List Miner
  batch : List Miner
  store : Store
deriving DecidableEq, Repr

/-- The loop of get_miners_to_query, validator.py lines 267-283.
scored is the snapshot read at line 260 (used for every membership and
key comparison), st the threaded state of the weights file (re-read and
rewritten by the deletion at lines 270-273).  A covered miner is removed
from remaining and skipped; otherwise a stale record is erased from the
file, the miner is appended to the batch and the loop breaks once the
batch holds 8 miners. -/
def minersQueryGo (scored : Store) : List Miner → List Miner → List Miner → Nat → Store → QueryResult
  | [], remaining, batch, _, st => ⟨remaining, batch, st⟩
  | m :: ms, remaining, batch, counter, st =>
    if isCovered scored m then
      minersQueryGo scored ms (remaining.filter fun rm => rm.uid != m.uid) batch counter st
    else
      let st' := if isStale scored m then eraseStore st m.uid else st
      if counter + 1 = 8 then ⟨remaining, batch ++ [m], st'⟩
      else minersQueryGo scored ms remaining (batch ++ [m]) (counter + 1) st'

/-- get_miners_to_query, validator.py lines 257-288: remaining_miners
starts as a deep copy of the whole snapshot, miners_to_query empty,
counter 0, and the loop above runs over the snapshot. -/
def get_miners_to_query (miners : List Miner) (store : Store) : QueryResult :=
  minersQueryGo store miners miners [] 0 store

/-- split_ip_port, validator.py lines 194-211: empty input or a split
that does not give exactly two parts yields the pair of Python None. -/
def split_ip_port (ip_port : String) : Option String × Option String :=
  if ip_port = "" then (none, none)
  else
    match ip_port.splitOn ":" with
    | [ip, port] => (some ip, some port)
    | _ => (none, none)

/-- _get_miner_prediction, validator.py lines 213-252.  net models the
try block of lines 239-248 (the module call plus the answer field
access): it is total, returning none exactly when the call raised and
the except clause of line 249 mapped the failure to None.  Everything
before the try block runs unguarded, so int(module_port) raises out of
the function when module_port is Python None (TypeError) or a
non-numeric string (ValueError); the guard of line 234 compares against
the string None and therefore never matches those values. -/
def get_miner_prediction (net : String → Nat → Option String) (m : Miner) :
    Except String (Option String) :=
  let parts := split_ip_port m.address
  if parts.1 = some "None" ∨ parts.2 = some "None" then .ok (some "")
  else
    match parts.1, parts.2 with
    | some ip, some port =>
      match port.toNat? with
      | some p => .ok (net ip p)
      | none => .error "ValueError: invalid literal for int()"
    | _, _ => .error "TypeError: int() argument cannot be NoneType"

/-- validator.py lines 368-370: executor.map evaluates
_get_miner_prediction per batch member and the list expansion at line
370 re-raises the first uncaught exception, aborting the whole step. -/
def dispatchBatch (net : String → Nat → Option String) (batch : List Miner) :
    Except String (List (Option String)) :=
  batch.mapM (get_miner_prediction net)

/-- Python min over a nonempty sequence (none models the ValueError min
raises on an empty one). -/
def listMin : List ℚ → Option ℚ
  | [] => none
  | x :: xs => some (xs.foldl min x)

/-- Python max over a nonempty sequence. -/
def listMax : List ℚ → Option ℚ
  | [] => none
  | x :: xs => some (xs.foldl max x)

/-- normalize_scores, validator.py lines 89-103.  min/max of an empty
sequence raise, modelled by the error branch; equal extremes yield all
ones; otherwise min-max normalization, optionally rescaled when scale is
set (the callers use the default scale=False). -/
def normalize_scores (scores : List ℚ) (scale : Bool) : Except String (List ℚ) :=
  match listMin scores, listMax scores with
  | some mn, some mx =>
    if mn = mx then .ok (List.replicate scores.length 1)
    else
      let normalized := scores.map fun s => (s - mn) / (mx - mn)
      if scale then .ok (normalized.map fun s => s * (1 - mn) + mn)
      else .ok normalized
  | _, _ => .error "ValueError: min() arg is an empty sequence"

/-- A bounded, strictly increasing, logistic-style squashing map on the
rationals, taking values strictly between 0 and 1. -/
def sigmoid (x : ℚ) : ℚ :=
  1/2 + x / (2 * (1 + |x|))

/-- Modelled from the spec: sigmoid_rewards is imported at validator.py
line 23 from a sigmoid module absent from the given sources.  The spec
describes it as a monotonic squashing transform (logistic-style) applied
per worker, strictly increasing and bounded, preserving rank order.  We
model it as applying the map sigmoid to every value of the score dict,
keys and order untouched. -/
def sigmoid_rewards (score_dict : List (Nat × ℚ)) : List (Nat × ℚ) :=
  score_dict.map fun p => (p.1, sigmoid p.2)

/-- validator.py lines 441-447: rebuild the score dict from the uids and
the normalized scores, squash every score, and rescale each squashed
score by 1000 over the sum of all squashed scores.  In the code the sum
is computed once before the loop; computing it inside the map yields the
same value. -/
def weighted_of (s_dict : List (Nat × ℚ)) (normal_scores : List ℚ) : List (Nat × ℚ) :=
  let score_dict := (s_dict.map Prod.fst).zip normal_scores
  let sigmoided_scores := sigmoid_rewards score_dict
  sigmoided_scores.map fun p => (p.1, p.2 * 1000 / (sigmoided_scores.map Prod.snd).sum)

/-- validator.py lines 451-452: if self.uid is not None and self.uid is
a key of weighted_scores, delete it.  The weights file, and with it
s_dict and weighted_scores (read back at lines 411-416), is keyed by
str(uid) - the same string keying that the membership checks of
get_miners_to_query at line 268 rely on - while self.uid is the int
obtained at lines 336-338, so the membership test compares an int
against string keys and never fires: the deletion is dead code and the
map is returned unchanged.  The selfUid parameter is kept to mirror the
signature of the intended deletion. -/
def drop_self (selfUid : Option Nat) (kept : List (Nat × ℚ)) : List (Nat × ℚ) :=
  kept

/-- The weight synthesis of set_weights, validator.py lines 431-457, up
to the vote call: normalize the raw scores (an exception propagates),
squash them, rescale to the 1000 budget, min-max normalize again
dropping exact zeros; the deletion of the validator uid at lines
451-452 never fires (see drop_self), so the map passes through it
unchanged. -/
def set_weights (s_dict : List (Nat × ℚ)) (selfUid : Option Nat) :
    Except String (List (Nat × ℚ)) :=
  Except.bind (normalize_scores (s_dict.map Prod.snd) false) fun normal_scores =>
    let weighted_scores := weighted_of s_dict normal_scores
    Except.bind (normalize_scores (weighted_scores.map Prod.snd) false) fun renormed =>
      let kept := ((weighted_scores.map Prod.fst).zip renormed).filter fun p => p.2 != 0
      .ok (drop_self selfUid kept)

/-- Weight looked up in a result map, 0 when the uid is absent. -/
def weightOf (l : List (Nat × ℚ)) (u : Nat) : ℚ :=
  (alookup l u).getD 0

/-- data_to_write, validator.py lines 381-391: score_dict zips the batch
uids with the scorer output and each batch member is written with its
current key and its score; a uid missing from score_dict (scorer output
shorter than the batch) raises KeyError, modelled as none. -/
def buildDataToWrite (score_dict : List (Nat × ℚ)) : List Miner → Option (List (Nat × ScoreRecord))
  | [] => some []
  | m :: ms =>
    match alookup score_dict m.uid, buildDataToWrite score_dict ms with
    | some s, some rest => some ((m.uid, ⟨m.key, s⟩) :: rest)
    | _, _ => none

/-- validator.py lines 381-397: build score_dict from the batch and the
scorer output, turn it into data_to_write, merge it entry by entry into
the weights file and write the file back. -/
def persistScores (batch : List Miner) (scores : List ℚ) (store : Store) : Option Store :=
  let score_dict := (batch.map Miner.uid).zip scores
  match buildDataToWrite score_dict batch with
  | some data => some (data.foldl (fun st p => storeInsert st p.1 p.2) store)
  | none => none

/-- The outcome of the finalization branch of a validation step: the
state of the weights file afterwards, and the uncaught exception if one
escaped (validation_loop, lines 422-429, has no handler, so an escaped
exception terminates the loop and the process). -/
structure StepResult where
  store : Store
  fatal : Option String
deriving DecidableEq, Repr

/-- The finalization branch of validate_step (lines 410-420) together
with the submission of set_weights (lines 462-470).  vote1 models the
first client.vote call; on failure the code sleeps a random 1 to 2
seconds, re-resolves a fresh node url into a new client and votes once
more, modelled by vote2, with no surrounding try: a second failure
escapes.  On success the weights file is reset to empty (line 420); on
an escaped exception the reset is never reached, so the file keeps the
accumulated scores. -/
def finalizeCycle (store : Store) (selfUid : Option Nat)
    (vote1 vote2 : Except String Unit) : StepResult :=
  match set_weights (store.map fun p => (p.1, p.2.score)) selfUid with
  | .error e => ⟨store, some e⟩
  | .ok _ =>
    match vote1 with
    | .ok _ => ⟨[], none⟩
    | .error _ =>
      match vote2 with
      | .ok _ => ⟨[], none⟩
      | .error e => ⟨store, some e⟩

/-- validation_loop, validator.py lines 422-429: the loop body only
logs, runs the step and sleeps; it has no exception handler, so the loop
survives a tick exactly when no exception escaped the step. -/
def survivesTick (r : StepResult) : Bool :=
  r.fatal.isNone

/-- Nodup of the uids of a snapshot (directory snapshots key miners by
uid, so real snapshots satisfy it). -/
def uidNodup (miners : List Miner) : Prop :=
  (miners.map Miner.uid).Nodup

instance (miners : List Miner) : Decidable (uidNodup miners) := by
  unfold uidNodup; infer_instance

/-! ### Store lemmas -/

lemma alookup_eraseStore_self (st : Store) (u : Nat) :
    alookup (eraseStore st u) u = none := by
  induction st with
  | nil => rfl
  | cons p t ih =>
    by_cases h : p.1 = u
    · simp only [eraseStore, List.filter_cons] at ih ⊢
      rw [if_neg (by simp [h])]
      exact ih
    · simp only [eraseStore, List.filter_cons] at ih ⊢
      rw [if_pos (by simp [h])]
      simpa [alookup, h] using ih

lemma alookup_eraseStore_ne (st : Store) (u v : Nat) (h : u ≠ v) :
    alookup (eraseStore st v) u = alookup st u := by
  induction st with
  | nil => rfl
  | cons p t ih =>
    by_cases hp : p.1 = v
    · have hpu : ¬ p.1 = u := by rw [hp]; exact fun hc => h hc.symm
      simp only [eraseStore, List.filter_cons] at ih ⊢
      rw [if_neg (by simp [hp])]
      simpa [alookup, hpu] using ih
    · simp only [eraseStore, List.filter_cons] at ih ⊢
      rw [if_pos (by simp [hp])]
      by_cases hu : p.1 = u
      · simp [alookup, hu]
      · simpa [alookup, hu] using ih

lemma alookup_map_overwrite (st : Store) (v : Nat) (r : ScoreRecord) (u : Nat) :
    alookup (st.map fun p => if p.1 = v then (v, r) else p) u
      = if v = u then (alookup st u).map (fun _ => r) else alookup st u := by
  induction st with
  | nil => simp [alookup]
  | cons p t ih =>
    by_cases hpv : p.1 = v
    · by_cases hvu : v = u
      · subst hvu
        simp [alookup, List.map_cons, hpv, ih]
      · have hpu : ¬ p.1 = u := by rw [hpv]; exact hvu
        simp [alookup, List.map_cons, hpv, hvu, hpu, ih]
    · by_cases hpu : p.1 = u
      · have hvu : ¬ v = u := fun hc => hpv (by rw [hpu, hc])
        have huv : ¬ u = v := fun hc => hvu hc.symm
        simp [alookup, List.map_cons, hpv, hpu, hvu, huv]
      · simp [alookup, List.map_cons, hpv, hpu, ih]

lemma alookup_append_single (st : Store) (v : Nat) (r : ScoreRecord) (u : Nat) :
    alookup (st ++ [(v, r)]) u
      = match alookup st u with
        | some x => some x
        | none => if v = u then some r else none := by
  induction st with
  | nil => simp [alookup]
  | cons p t ih =>
    by_cases hpu : p.1 = u
    · simp [alookup, hpu]
    · simpa [alookup, hpu] using ih

lemma alookup_storeInsert_self (st : Store) (u : Nat) (r : ScoreRecord) :
    alookup (storeInsert st u r) u = some r := by
  unfold storeInsert
  cases h : alookup st u with
  | none => simp [alookup_append_single, h]
  | some r0 => simp [alookup_map_overwrite, h]

lemma alookup_storeInsert_ne (st : Store) (u v : Nat) (r : ScoreRecord) (h : u ≠ v) :
    alookup (storeInsert st v r) u = alookup st u := by
  unfold storeInsert
  have hvu : ¬ v = u := fun hc => h hc.symm
  cases halo : alookup st v with
  | none =>
    rw [alookup_append_single]
    cases h2 : alookup st u with
    | none => simp [hvu]
    | some x => simp
  | some r0 =>
    rw [alookup_map_overwrite]
    simp [hvu]

/-! ### listMin / listMax lemmas -/

lemma foldl_min_le_start (xs : List ℚ) (x : ℚ) : xs.foldl min x ≤ x := by
  induction xs generalizing x with
  | nil => exact le_refl x
  | cons y ys ih => exact le_trans (ih (min x y)) (min_le_left x y)

lemma foldl_min_le_mem (xs : List ℚ) (x : ℚ) : ∀ y ∈ xs, xs.foldl min x ≤ y := by
  induction xs generalizing x with
  | nil => intro y hy; cases hy
  | cons z zs ih =>
    intro y hy
    rcases List.mem_cons.mp hy with h | h
    · subst h
      exact le_trans (foldl_min_le_start zs (min x y)) (min_le_right x y)
    · exact ih (min x z) y h

lemma le_foldl_max_start (xs : List ℚ) (x : ℚ) : x ≤ xs.foldl max x := by
  induction xs generalizing x with
  | nil => exact le_refl x
  | cons y ys ih => exact le_trans (le_max_left x y) (ih (max x y))

lemma le_foldl_max_mem (xs : List ℚ) (x : ℚ) : ∀ y ∈ xs, y ≤ xs.foldl max x := by
  induction xs generalizing x with
  | nil => intro y hy; cases hy
  | cons z zs ih =>
    intro y hy
    rcases List.mem_cons.mp hy with h | h
    · subst h
      exact le_trans (le_max_right x y) (le_foldl_max_start zs (max x y))
    · exact ih (max x z) y h

lemma listMin_le (l : List ℚ) (mn : ℚ) (h : listMin l = some mn) :
    ∀ y ∈ l, mn ≤ y := by
  cases l with
  | nil => simp [listMin] at h
  | cons x xs =>
    simp only [listMin, Option.some.injEq] at h
    intro y hy
    rcases List.mem_cons.mp hy with h' | h'
    · subst h'; rw [← h]; exact foldl_min_le_start xs y
    · rw [← h]; exact foldl_min_le_mem xs x y h'

lemma le_listMax (l : List ℚ) (mx : ℚ) (h : listMax l = some mx) :
    ∀ y ∈ l, y ≤ mx := by
  cases l with
  | nil => simp [listMax] at h
  | cons x xs =>
    simp only [listMax, Option.some.injEq] at h
    intro y hy
    rcases List.mem_cons.mp hy with h' | h'
    · subst h'; rw [← h]; exact le_foldl_max_start xs y
    · rw [← h]; exact le_foldl_max_mem xs x y h'

lemma listMin_isSome (l : List ℚ) (h : l ≠ []) : ∃ mn, listMin l = some mn := by
  cases l with
  | nil => exact absurd rfl h
  | cons x xs => exact ⟨xs.foldl min x, rfl⟩

lemma listMax_isSome (l : List ℚ) (h : l ≠ []) : ∃ mx, listMax l = some mx := by
  cases l with
  | nil => exact absurd rfl h
  | cons x xs => exact ⟨xs.foldl max x, rfl⟩

lemma foldl_min_const : ∀ (xs : List ℚ) (x : ℚ), (∀ y ∈ xs, y = x) → xs.foldl min x = x
  | [], _, _ => rfl
  | z :: zs, x, h => by
    have hz : z = x := h z (List.mem_cons_self z zs)
    rw [List.foldl_cons, hz, min_self]
    exact foldl_min_const zs x (fun y hy => h y (List.mem_cons.mpr (Or.inr hy)))

lemma foldl_max_const : ∀ (xs : List ℚ) (x : ℚ), (∀ y ∈ xs, y = x) → xs.foldl max x = x
  | [], _, _ => rfl
  | z :: zs, x, h => by
    have hz : z = x := h z (List.mem_cons_self z zs)
    rw [List.foldl_cons, hz, max_self]
    exact foldl_max_const zs x (fun y hy => h y (List.mem_cons.mpr (Or.inr hy)))

lemma listMin_const (l : List ℚ) (c : ℚ) (hne : l ≠ []) (h : ∀ y ∈ l, y = c) :
    listMin l = some c := by
  cases l with
  | nil => exact absurd rfl hne
  | cons x xs =>
    have hx : x = c := h x (List.mem_cons_self x xs)
    subst hx
    simp only [listMin, Option.some.injEq]
    exact foldl_min_const xs x (fun y hy => h y (List.mem_cons.mpr (Or.inr hy)))

lemma listMax_const (l : List ℚ) (c : ℚ) (hne : l ≠ []) (h : ∀ y ∈ l, y = c) :
    listMax l = some c := by
  cases l with
  | nil => exact absurd rfl hne
  | cons x xs =>
    have hx : x = c := h x (List.mem_cons_self x xs)
    subst hx
    simp only [listMax, Option.some.injEq]
    exact foldl_max_const xs x (fun y hy => h y (List.mem_cons.mpr (Or.inr hy)))

/-! ### minersQueryGo lemmas -/

lemma minersQueryGo_remaining_subset (scored : Store) (ms : List Miner) :
    ∀ (rem batch : List Miner) (c : Nat) (st : Store),
      ∀ x ∈ (minersQueryGo scored ms rem batch c st).remaining, x ∈ rem := by
  induction ms with
  | nil =>
    intro rem batch c st x hx
    simpa [minersQueryGo] using hx
  | cons m ms ih =>
    intro rem batch c st x hx
    cases hcov : isCovered scored m with
    | true =>
      simp only [minersQueryGo, hcov, if_true] at hx
      exact List.mem_of_mem_filter (ih _ _ _ _ x hx)
    | false =>
      by_cases h8 : c + 1 = 8
      · simp only [minersQueryGo, hcov, Bool.false_eq_true, if_false, h8, if_true] at hx
        exact hx
      · simp only [minersQueryGo, hcov, Bool.false_eq_true, if_false, h8] at hx
        exact ih _ _ _ _ x hx

lemma minersQueryGo_batch_eq (scored : Store) (ms : List Miner) :
    ∀ (rem batch : List Miner) (c : Nat) (st : Store), c = batch.length → c < 8 →
      (minersQueryGo scored ms rem batch c st).batch
        = batch ++ (candidates scored ms).take (8 - c) := by
  induction ms with
  | nil =>
    intro rem batch c st hc hlt
    simp [minersQueryGo, candidates]
  | cons m ms ih =>
    intro rem batch c st hc hlt
    cases hcov : isCovered scored m with
    | true =>
      have hcand : candidates scored (m :: ms) = candidates scored ms := by
        simp [candidates, List.filter_cons, hcov]
      rw [hcand]
      simp only [minersQueryGo, hcov, if_true]
      exact ih _ _ _ _ hc hlt
    | false =>
      have hcand : candidates scored (m :: ms) = m :: candidates scored ms := by
        simp [candidates, List.filter_cons, hcov]
      rw [hcand]
      by_cases h8 : c + 1 = 8
      · have hc7 : 8 - c = 1 := by omega
        simp only [minersQueryGo, hcov, Bool.false_eq_true, if_false, h8, if_true, hc7,
          List.take_succ_cons, List.take_zero]
      · have hsub : 8 - c = (8 - (c + 1)) + 1 := by omega
        simp only [minersQueryGo, hcov, Bool.false_eq_true, if_false, h8]
        rw [ih rem (batch ++ [m]) (c + 1) _ (by simp [hc]) (by omega), hsub,
          List.take_succ_cons, List.append_assoc, List.singleton_append]

lemma minersQueryGo_candidate_mem (scored : Store) (ms : List Miner) :
    ∀ (rem batch : List Miner) (c : Nat) (st : Store) (x : Miner),
      x ∈ rem → (∀ m ∈ ms, m.uid = x.uid → isCovered scored m = false) →
      x ∈ (minersQueryGo scored ms rem batch c st).remaining := by
  induction ms with
  | nil =>
    intro rem batch c st x hx _
    simpa [minersQueryGo] using hx
  | cons m ms ih =>
    intro rem batch c st x hx hms
    cases hcov : isCovered scored m with
    | true =>
      simp only [minersQueryGo, hcov, if_true]
      apply ih
      · refine List.mem_filter.mpr ⟨hx, ?_⟩
        have : ¬ m.uid = x.uid := fun hc => by
          have := hms m (List.mem_cons_self m ms) hc
          rw [this] at hcov
          cases hcov
        simp only [bne_iff_ne, ne_eq, decide_eq_true_eq]
        exact fun hc => this hc.symm
      · exact fun m' hm' => hms m' (List.mem_cons.mpr (Or.inr hm'))
    | false =>
      by_cases h8 : c + 1 = 8
      · simp only [minersQueryGo, hcov, Bool.false_eq_true, if_false, h8, if_true]
        exact hx
      · simp only [minersQueryGo, hcov, Bool.false_eq_true, if_false, h8]
        exact ih _ _ _ _ x hx (fun m' hm' => hms m' (List.mem_cons.mpr (Or.inr hm')))

lemma minersQueryGo_covered_removed (scored : Store) (ms : List Miner) :
    ∀ (rem batch : List Miner) (c : Nat) (st : Store) (x : Miner),
      c = batch.length → x ∈ ms → isCovered scored x = true →
      (minersQueryGo scored ms rem batch c st).batch.length < 8 →
      x ∉ (minersQueryGo scored ms rem batch c st).remaining := by
  induction ms with
  | nil =>
    intro rem batch c st x hc hx
    cases hx
  | cons m ms ih =>
    intro rem batch c st x hc hx hcovx hlen
    rcases List.mem_cons.mp hx with heq | htail
    · subst heq
      simp only [minersQueryGo, hcovx, if_true] at hlen ⊢
      intro hmem
      have hsub := minersQueryGo_remaining_subset scored ms _ _ _ _ x hmem
      have := (List.mem_filter.mp hsub).2
      simp at this
    · cases hcov : isCovered scored m with
      | true =>
        simp only [minersQueryGo, hcov, if_true] at hlen ⊢
        exact ih _ _ _ _ x hc htail hcovx hlen
      | false =>
        by_cases h8 : c + 1 = 8
        · exfalso
          simp only [minersQueryGo, hcov, Bool.false_eq_true, if_false, h8, if_true,
            List.length_append, List.length_cons, List.length_nil] at hlen
          omega
        · simp only [minersQueryGo, hcov, Bool.false_eq_true, if_false, h8] at hlen ⊢
          exact ih _ (batch ++ [m]) (c + 1) _ x (by simp [hc]) htail hcovx hlen

lemma minersQueryGo_all_covered (scored : Store) (ms : List Miner) :
    ∀ (rem batch : List Miner) (c : Nat) (st : Store),
      (∀ m ∈ ms, isCovered scored m = true) →
      (∀ x ∈ rem, ∃ m ∈ ms, m.uid = x.uid) →
      (minersQueryGo scored ms rem batch c st).remaining = [] := by
  induction ms with
  | nil =>
    intro rem batch c st _ hrem
    have hnil : rem = [] := by
      cases rem with
      | nil => rfl
      | cons y ys =>
        obtain ⟨m, hm, _⟩ := hrem y (List.mem_cons_self y ys)
        cases hm
    simp [minersQueryGo, hnil]
  | cons m ms ih =>
    intro rem batch c st hall hrem
    have hcov := hall m (List.mem_cons_self m ms)
    simp only [minersQueryGo, hcov, if_true]
    apply ih
    · exact fun m' hm' => hall m' (List.mem_cons.mpr (Or.inr hm'))
    · intro x hxf
      have hx := List.mem_of_mem_filter hxf
      obtain ⟨m', hm', huid⟩ := hrem x hx
      rcases List.mem_cons.mp hm' with heq | htail
      · exfalso
        subst heq
        have := (List.mem_filter.mp hxf).2
        simp only [bne_iff_ne, ne_eq, decide_eq_true_eq] at this
        exact this huid.symm
      · exact ⟨m', htail, huid⟩

lemma minersQueryGo_store_none (scored : Store) (ms : List Miner) :
    ∀ (rem batch : List Miner) (c : Nat) (st : Store) (u : Nat),
      alookup st u = none →
      alookup (minersQueryGo scored ms rem batch c st).store u = none := by
  induction ms with
  | nil =>
    intro rem batch c st u hst
    simpa [minersQueryGo] using hst
  | cons m ms ih =>
    intro rem batch c st u hst
    have hst' : alookup (if isStale scored m then eraseStore st m.uid else st) u = none := by
      cases hstale : isStale scored m with
      | true =>
        simp only [if_true]
        by_cases hu : u = m.uid
        · rw [hu]; exact alookup_eraseStore_self st m.uid
        · rw [alookup_eraseStore_ne st u m.uid hu]; exact hst
      | false => simpa using hst
    cases hcov : isCovered scored m with
    | true =>
      simp only [minersQueryGo, hcov, if_true]
      exact ih _ _ _ _ u hst
    | false =>
      by_cases h8 : c + 1 = 8
      · simp only [minersQueryGo, hcov, Bool.false_eq_true, if_false, h8, if_true]
        exact hst'
      · simp only [minersQueryGo, hcov, Bool.false_eq_true, if_false, h8]
        exact ih _ _ _ _ u hst'

lemma minersQueryGo_purge (scored : Store) (ms : List Miner) :
    ∀ (rem batch : List Miner) (c : Nat) (st : Store) (m : Miner),
      m ∉ batch → isStale scored m = true →
      (∀ mm ∈ ms, mm.uid = m.uid → mm = m) →
      m ∈ (minersQueryGo scored ms rem batch c st).batch →
      alookup (minersQueryGo scored ms rem batch c st).store m.uid = none := by
  induction ms with
  | nil =>
    intro rem batch c st m hnotin hstale huid hmem
    simp only [minersQueryGo] at hmem
    exact absurd hmem hnotin
  | cons h hs ih =>
    intro rem batch c st m hnotin hstale huid hmem
    cases hcov : isCovered scored h with
    | true =>
      simp only [minersQueryGo, hcov, if_true] at hmem ⊢
      exact ih _ _ _ _ m hnotin hstale (fun mm hmm => huid mm (List.mem_cons.mpr (Or.inr hmm))) hmem
    | false =>
      by_cases heq : h = m
      · subst heq
        simp only [minersQueryGo, hcov, Bool.false_eq_true, if_false, hstale, if_true]
        by_cases h8 : c + 1 = 8
        · simp only [h8, if_true]
          exact alookup_eraseStore_self st h.uid
        · simp only [h8, if_false]
          exact minersQueryGo_store_none scored hs _ _ _ _ h.uid
            (alookup_eraseStore_self st h.uid)
      · have hmne : ¬ m = h := fun hc => heq hc.symm
        by_cases h8 : c + 1 = 8
        · exfalso
          simp only [minersQueryGo, hcov, Bool.false_eq_true, if_false, h8, if_true,
            List.mem_append, List.mem_singleton] at hmem
          rcases hmem with hmem | hmem
          · exact hnotin hmem
          · exact hmne hmem
        · simp only [minersQueryGo, hcov, Bool.false_eq_true, if_false, h8] at hmem ⊢
          refine ih _ (batch ++ [h]) (c + 1) _ m ?_ hstale
            (fun mm hmm => huid mm (List.mem_cons.mpr (Or.inr hmm))) hmem
          intro hc
          rcases List.mem_append.mp hc with hc | hc
          · exact hnotin hc
          · exact hmne (List.mem_singleton.mp hc)

/-! ### Top-level coverage lemmas -/

lemma get_miners_to_query_batch (miners : List Miner) (store : Store) :
    (get_miners_to_query miners store).batch = (candidates store miners).take 8 := by
  have := minersQueryGo_batch_eq store miners miners [] 0 store rfl (by omega)
  simpa using this

lemma covered_not_in_batch (miners : List Miner) (store : Store) (m : Miner)
    (hcov : isCovered store m = true) :
    m ∉ (get_miners_to_query miners store).batch := by
  rw [get_miners_to_query_batch]
  intro hm
  have hmem := List.mem_of_mem_take hm
  have := (List.mem_filter.mp hmem).2
  rw [hcov] at this
  cases this

lemma candidate_in_remaining (miners : List Miner) (store : Store) (x : Miner)
    (hx : x ∈ miners) (hxc : isCovered store x = false) (hnd : uidNodup miners) :
    x ∈ (get_miners_to_query miners store).remaining := by
  apply minersQueryGo_candidate_mem store miners miners [] 0 store x hx
  intro m hm huid
  have hmx : m = x := List.inj_on_of_nodup_map hnd hm hx huid
  rw [hmx]
  exact hxc

/-! ### Concrete inputs for counterexamples and witnesses -/

def minerA : Miner := ⟨1, "keyA", "1.1.1.1:80", 1, 0⟩

def minerB : Miner := ⟨2, "keyB", "2.2.2.2:80", 1, 0⟩

def minerC : Miner := ⟨3, "keyC", "3.3.3.3:80", 1, 0⟩

def storeC : Store := [(3, ⟨"keyC", 1⟩)]

def minerD : Miner := ⟨4, "newKey", "4.4.4.4:80", 1, 0⟩

def storeD : Store := [(4, ⟨"oldKey", 5⟩)]

def nineMiners : List Miner :=
  [⟨1, "k1", "", 1, 0⟩, ⟨2, "k2", "", 1, 0⟩, ⟨3, "k3", "", 1, 0⟩,
   ⟨4, "k4", "", 1, 0⟩, ⟨5, "k5", "", 1, 0⟩, ⟨6, "k6", "", 1, 0⟩,
   ⟨7, "k7", "", 1, 0⟩, ⟨8, "k8", "", 1, 0⟩, ⟨9, "k9", "", 1, 0⟩]

def storeNine : Store := [(9, ⟨"k9", 1⟩)]

/-! ### C1 -/

/-- C1 counterexample: with a single eligible, unscored worker, the step
that scores it (it is the whole batch, the last unscored worker of the
cycle) still returns it inside remaining, so remaining is not empty
after persisting and the finalization branch of validate_step line 410
does not run in that same step, contradicting the claim. -/
theorem finalization_not_in_last_scoring_step :
    (get_miners_to_query (get_miner_ip_port [minerA]) []).batch = [minerA] ∧
    (get_miners_to_query (get_miner_ip_port [minerA]) []).remaining ≠ [] := by
  decide

/-- C1 (amended): a cycle finalizes exactly when every worker of the
eligible snapshot already has a current, non-stale record at the start
of the step: the remaining list checked at validator.py line 410 is
empty iff every eligible miner is covered by the store read at the start
of get_miners_to_query.  Because remaining keeps the batch itself, this
happens one step after the last scoring step, not in it. -/
theorem cycle_finalizes_iff_snapshot_covered (modules : List Miner) (store : Store)
    (hnd : uidNodup (get_miner_ip_port modules)) :
    (get_miners_to_query (get_miner_ip_port modules) store).remaining = []
      ↔ ∀ m ∈ get_miner_ip_port modules, isCovered store m = true := by
  constructor
  · intro hempty m hm
    cases hcov : isCovered store m with
    | true => rfl
    | false =>
      exfalso
      have := candidate_in_remaining (get_miner_ip_port modules) store m hm hcov hnd
      rw [hempty] at this
      cases this
  · intro hall
    apply minersQueryGo_all_covered store (get_miner_ip_port modules)
      (get_miner_ip_port modules) [] 0 store hall
    intro x hx
    exact ⟨x, hx, rfl⟩

/-- C1 witness: the amended theorem applied to a one-miner snapshot with
a covering store. -/
theorem cycle_finalizes_iff_snapshot_covered_witness :
    uidNodup (get_miner_ip_port [minerA]) ∧
    ((get_miners_to_query (get_miner_ip_port [minerA]) [(1, ⟨"keyA", 2⟩)]).remaining = []
      ↔ ∀ m ∈ get_miner_ip_port [minerA], isCovered [(1, ⟨"keyA", 2⟩)] m = true) :=
  ⟨by decide, cycle_finalizes_iff_snapshot_covered [minerA] [(1, ⟨"keyA", 2⟩)] (by decide)⟩

/-! ### C2 -/

/-- C2 counterexample: for a snapshot of one uncovered worker the
returned remaining and batch both contain that worker, so the partition
is not disjoint (and remaining is not the candidate set minus the
batch). -/
theorem partition_not_disjoint :
    minerB ∈ (get_miners_to_query [minerB] []).remaining ∧
    minerB ∈ (get_miners_to_query [minerB] []).batch := by
  decide

/-- C2 (amended): batch is the first min(8, number of candidates)
candidates in snapshot order, so its size is at most 8; but remaining is
not the complement of batch: every candidate, batch members included,
stays inside remaining, and remaining is a subset of the snapshot.  The
two lists are disjoint only when the batch is empty. -/
theorem partition_shape (miners : List Miner) (store : Store)
    (hnd : uidNodup miners) :
    (get_miners_to_query miners store).batch = (candidates store miners).take 8 ∧
    (get_miners_to_query miners store).batch.length ≤ 8 ∧
    (∀ m ∈ candidates store miners, m ∈ (get_miners_to_query miners store).remaining) ∧
    (∀ m ∈ (get_miners_to_query miners store).remaining, m ∈ miners) := by
  refine ⟨get_miners_to_query_batch miners store, ?_, ?_, ?_⟩
  · rw [get_miners_to_query_batch, List.length_take]
    exact min_le_left _ _
  · intro m hm
    have hmem := List.mem_of_mem_filter hm
    have hcov : isCovered store m = false := by
      have := (List.mem_filter.mp hm).2
      cases h : isCovered store m with
      | true => rw [h] at this; cases this
      | false => rfl
    exact candidate_in_remaining miners store m hmem hcov hnd
  · exact minersQueryGo_remaining_subset store miners miners [] 0 store

/-- C2 witness: the amended partition shape at a one-miner snapshot. -/
theorem partition_shape_witness :
    uidNodup [minerB] ∧
    ((get_miners_to_query [minerB] []).batch = (candidates [] [minerB]).take 8 ∧
    (get_miners_to_query [minerB] []).batch.length ≤ 8 ∧
    (∀ m ∈ candidates [] [minerB], m ∈ (get_miners_to_query [minerB] []).remaining) ∧
    (∀ m ∈ (get_miners_to_query [minerB] []).remaining, m ∈ [minerB])) :=
  ⟨by decide, partition_shape [minerB] [] (by decide)⟩

/-! ### C7 -/

/-- C7 counterexample: nine miners, the first eight uncovered and the
ninth covered by a matching record; the loop breaks at the eighth
candidate before examining the ninth, so the covered ninth miner stays
inside remaining, contradicting the claim that a covered worker is
never in remaining. -/
theorem covered_worker_left_in_remaining :
    isCovered storeNine ⟨9, "k9", "", 1, 0⟩ = true ∧
    ⟨9, "k9", "", 1, 0⟩ ∈ (get_miners_to_query nineMiners storeNine).remaining := by
  decide

/-- C7 (amended): a covered worker (existing record, unchanged key) is
never part of the batch; it is also excluded from remaining whenever the
loop examined the whole snapshot, which is guaranteed when the returned
batch holds fewer than 8 miners.  A covered worker positioned after the
point where the batch cap broke the loop stays in remaining. -/
theorem covered_worker_not_queried (miners : List Miner) (store : Store) (m : Miner)
    (hm : m ∈ miners) (hcov : isCovered store m = true) :
    m ∉ (get_miners_to_query miners store).batch ∧
    ((get_miners_to_query miners store).batch.length < 8 →
      m ∉ (get_miners_to_query miners store).remaining) := by
  constructor
  · exact covered_not_in_batch miners store m hcov
  · intro hlen
    exact minersQueryGo_covered_removed store miners miners [] 0 store m rfl hm hcov hlen

/-- C7 witness: the amended theorem applied to a one-miner snapshot
whose worker is covered. -/
theorem covered_worker_not_queried_witness :
    (minerC ∈ [minerC] ∧ isCovered storeC minerC = true) ∧
    (minerC ∉ (get_miners_to_query [minerC] storeC).batch ∧
    ((get_miners_to_query [minerC] storeC).batch.length < 8 →
      minerC ∉ (get_miners_to_query [minerC] storeC).remaining)) :=
  ⟨⟨by decide, by decide⟩, covered_worker_not_queried [minerC] storeC minerC (by decide) (by decide)⟩

/-! ### C8 -/

/-- C8: a worker whose current key differs from the stored one is never
treated as covered: it always stays in the candidate pool (it is in
remaining, and in the batch when it is among the first eight
candidates), and whenever the loop examined it (it was appended to the
batch) its stale record has been deleted from the weights file returned
by the call, so a stale record is purged before the worker could ever
be treated as already covered. -/
theorem rotated_worker_requeried_and_purged (miners : List Miner) (store : Store)
    (m : Miner) (rec : ScoreRecord) (hnd : uidNodup miners) (hm : m ∈ miners)
    (hrec : alookup store m.uid = some rec) (hne : m.key ≠ rec.ss58) :
    m ∈ (get_miners_to_query miners store).remaining ∧
    (m ∈ (get_miners_to_query miners store).batch →
      alookup (get_miners_to_query miners store).store m.uid = none) := by
  have hcovf : isCovered store m = false := by
    simp [isCovered, hrec, hne]
  have hstale : isStale store m = true := by
    simp [isStale, hrec, hne]
  constructor
  · exact candidate_in_remaining miners store m hm hcovf hnd
  · intro hmem
    apply minersQueryGo_purge store miners miners [] 0 store m (by simp) hstale ?_ hmem
    intro mm hmm huid
    exact List.inj_on_of_nodup_map hnd hmm hm huid

/-- C8 witness: a single rotated worker is re-queried and its stale
record is purged from the returned store. -/
theorem rotated_worker_requeried_and_purged_witness :
    (uidNodup [minerD] ∧ minerD ∈ [minerD] ∧
      alookup storeD minerD.uid = some ⟨"oldKey", 5⟩ ∧ minerD.key ≠ "oldKey") ∧
    (minerD ∈ (get_miners_to_query [minerD] storeD).remaining ∧
    (minerD ∈ (get_miners_to_query [minerD] storeD).batch →
      alookup (get_miners_to_query [minerD] storeD).store minerD.uid = none)) :=
  ⟨⟨by decide, by decide, by decide, by decide⟩,
    rotated_worker_requeried_and_purged [minerD] storeD minerD ⟨"oldKey", 5⟩
      (by decide) (by decide) (by decide) (by decide)⟩

/-! ### Persistence lemmas -/

lemma buildDataToWrite_eq_map (sd : List (Nat × ℚ)) (batch : List Miner)
    (h : ∀ m ∈ batch, (alookup sd m.uid).isSome) :
    buildDataToWrite sd batch
      = some (batch.map fun m => (m.uid, ⟨m.key, (alookup sd m.uid).getD 0⟩)) := by
  induction batch with
  | nil => rfl
  | cons m ms ih =>
    obtain ⟨s, hs⟩ := Option.isSome_iff_exists.mp (h m (List.mem_cons_self m ms))
    rw [buildDataToWrite, hs, ih (fun m' hm' => h m' (List.mem_cons.mpr (Or.inr hm')))]
    simp [hs]

lemma alookup_zip_isSome (ks : List Nat) (vs : List ℚ) (k : Nat)
    (hk : k ∈ ks) (hlen : vs.length = ks.length) :
    (alookup (ks.zip vs) k).isSome := by
  induction ks generalizing vs with
  | nil => cases hk
  | cons k0 kt ih =>
    cases vs with
    | nil => simp at hlen
    | cons v0 vt =>
      by_cases h : k0 = k
      · simp [List.zip_cons_cons, alookup, h]
      · rcases List.mem_cons.mp hk with he | ht
        · exact absurd he.symm h
        · simp only [List.zip_cons_cons, alookup, h, if_false]
          exact ih vt ht (by simpa using hlen)

lemma alookup_foldl_storeInsert_not_mem (data : List (Nat × ScoreRecord)) :
    ∀ (st : Store) (u : Nat), u ∉ data.map Prod.fst →
      alookup (data.foldl (fun s p => storeInsert s p.1 p.2) st) u = alookup st u := by
  induction data with
  | nil => intro st u _; rfl
  | cons d ds ih =>
    intro st u h
    have hne : u ≠ d.1 := fun hc => h (by simp [hc])
    rw [List.foldl_cons, ih _ u (fun hc => h (by simp [hc]))]
    exact alookup_storeInsert_ne st u d.1 d.2 hne

lemma alookup_foldl_storeInsert_mem (data : List (Nat × ScoreRecord)) :
    ∀ (st : Store) (u : Nat) (r : ScoreRecord),
      (data.map Prod.fst).Nodup → (u, r) ∈ data →
      alookup (data.foldl (fun s p => storeInsert s p.1 p.2) st) u = some r := by
  induction data with
  | nil => intro st u r _ hur; cases hur
  | cons d ds ih =>
    intro st u r hnd hur
    rcases List.mem_cons.mp hur with he | ht
    · have hnin : u ∉ ds.map Prod.fst := by
        have := (List.nodup_cons.mp hnd).1
        rw [← he] at this
        simpa using this
      rw [List.foldl_cons, alookup_foldl_storeInsert_not_mem ds _ u hnin, ← he,
        alookup_storeInsert_self]
    · exact ih _ u r (List.nodup_cons.mp hnd).2 ht

/-! ### C10 -/

/-- C10: after the persistence phase of a step (validator.py lines
381-397), every member of the queried batch has a record in the weights
file keyed by its uid and carrying its current key, whatever score the
external scorer produced for it (an unreachable worker contributes a
score like any other, since the scorer output is positional); hence
every batch member is covered afterwards and is excluded from the batch
of any later get_miners_to_query against that store, until the cycle
reset empties the file. -/
theorem batch_members_persisted (batch : List Miner) (scores : List ℚ) (store : Store)
    (hlen : scores.length = batch.length) (hnd : uidNodup batch) :
    ∃ st2, persistScores batch scores store = some st2 ∧
      ∀ m ∈ batch, isCovered st2 m = true ∧
        ∀ miners2, m ∉ (get_miners_to_query miners2 st2).batch := by
  have hsome : ∀ m ∈ batch, (alookup ((batch.map Miner.uid).zip scores) m.uid).isSome := by
    intro m hm
    exact alookup_zip_isSome _ _ _ (List.mem_map_of_mem Miner.uid hm) (by simp [hlen])
  have hbuild := buildDataToWrite_eq_map ((batch.map Miner.uid).zip scores) batch hsome
  refine ⟨(batch.map fun m =>
      ((m.uid, ⟨m.key, (alookup ((batch.map Miner.uid).zip scores) m.uid).getD 0⟩) :
        Nat × ScoreRecord)).foldl (fun s p => storeInsert s p.1 p.2) store, ?_, ?_⟩
  · rw [persistScores, hbuild]
  · intro m hm
    have hkeys : ((batch.map fun m =>
        ((m.uid, ⟨m.key, (alookup ((batch.map Miner.uid).zip scores) m.uid).getD 0⟩) :
          Nat × ScoreRecord)).map Prod.fst).Nodup := by
      rw [List.map_map]
      exact hnd
    have hmem : ((m.uid,
        (⟨m.key, (alookup ((batch.map Miner.uid).zip scores) m.uid).getD 0⟩ : ScoreRecord)) :
          Nat × ScoreRecord) ∈ batch.map fun m =>
        ((m.uid, ⟨m.key, (alookup ((batch.map Miner.uid).zip scores) m.uid).getD 0⟩) :
          Nat × ScoreRecord) :=
      List.mem_map_of_mem _ hm
    have hlook := alookup_foldl_storeInsert_mem _ store m.uid _ hkeys hmem
    have hcov : isCovered ((batch.map fun m =>
        ((m.uid, ⟨m.key, (alookup ((batch.map Miner.uid).zip scores) m.uid).getD 0⟩) :
          Nat × ScoreRecord)).foldl (fun s p => storeInsert s p.1 p.2) store) m = true := by
      simp [isCovered, hlook]
    exact ⟨hcov, fun miners2 => covered_not_in_batch miners2 _ m hcov⟩

/-- C10 witness: a one-miner batch with one score is persisted and not
re-queried. -/
theorem batch_members_persisted_witness :
    ([(3 : ℚ)].length = [minerA].length ∧ uidNodup [minerA]) ∧
    (∃ st2, persistScores [minerA] [(3 : ℚ)] [] = some st2 ∧
      ∀ m ∈ [minerA], isCovered st2 m = true ∧
        ∀ miners2, m ∉ (get_miners_to_query miners2 st2).batch) :=
  ⟨⟨by decide, by decide⟩, batch_members_persisted [minerA] [(3 : ℚ)] [] (by decide) (by decide)⟩

/-! ### C9 -/

/-- C9: when finalization triggers with no eligible workers and an empty
store (an empty snapshot yields remaining = [], the trigger of
validator.py line 410), set_weights receives an empty score dict and
normalize_scores evaluates min of an empty sequence: the call errors
instead of returning a weight map, and the error escapes the
finalization branch of the step. -/
theorem empty_scores_min_raises :
    (get_miners_to_query [] []).remaining = [] ∧
    set_weights [] none = .error "ValueError: min() arg is an empty sequence" ∧
    (finalizeCycle [] none (.ok ()) (.ok ())).fatal
      = some "ValueError: min() arg is an empty sequence" :=
  ⟨rfl, rfl, rfl⟩

/-! ### C3 -/

/-- A network model that always answers: used to show the crash happens
before any network call could be attempted. -/
def netOk : String → Nat → Option String := fun _ _ => some "ok"

/-- A network model whose every call fails inside the try block (the
except clause of line 249 maps the failure to None). -/
def netFail : String → Nat → Option String := fun _ _ => none

/-- C3: evaluation at the failing input.  A worker with an empty
(missing) address makes split_ip_port return the pair of Python None;
the guard of line 234 compares them against the string None, never
matches, and int(module_port) raises an uncaught TypeError before any
network call, which propagates through executor.map and aborts the whole
dispatch instead of yielding an empty response for that worker only.  A
transport failure inside the try block, by contrast, is isolated per
worker as the claim says. -/
theorem missing_address_aborts_dispatch :
    get_miner_prediction netOk ⟨5, "k5", "", 1, 0⟩
      = .error "TypeError: int() argument cannot be NoneType" ∧
    dispatchBatch netOk [⟨5, "k5", "", 1, 0⟩, minerA]
      = .error "TypeError: int() argument cannot be NoneType" ∧
    dispatchBatch netFail [minerA, minerB] = .ok [none, none] := by
  refine ⟨rfl, rfl, ?_⟩
  with_unfolding_all decide

/-! ### C4 -/

/-- A concrete accumulated store used by the submission counterexample. -/
def twoStore : Store := [(1, ⟨"ka", 2⟩), (2, ⟨"kb", 3⟩)]

/-- C4 counterexample: when both vote calls fail, the exception of the
second, unguarded call escapes set_weights, validate_step and the
handler-less validation_loop: the step is not survived, refuting the
claim that no error terminates the long-running loop.  The weights file
is left intact, as the claim says. -/
theorem second_submission_failure_fatal :
    survivesTick (finalizeCycle twoStore none (.error "boom1") (.error "boom2")) = false ∧
    (finalizeCycle twoStore none (.error "boom1") (.error "boom2")).store = twoStore := by
  with_unfolding_all decide

/-- C4 (amended): on a first transport failure the client retries
exactly once against a freshly re-resolved endpoint (after a random 1
to 2 second backoff); a successful retry completes the cycle and resets
the store, while a second failure propagates out of the step - the loop
has no handler, so it terminates the process - but the accumulated
scores are not cleared, so the same weights can be recomputed after a
restart. -/
theorem submission_retry_once (store : Store) (selfUid : Option Nat) (e1 e2 : String)
    (out : List (Nat × ℚ))
    (hok : set_weights (store.map fun p => (p.1, p.2.score)) selfUid = .ok out) :
    finalizeCycle store selfUid (.error e1) (.ok ()) = ⟨[], none⟩ ∧
    finalizeCycle store selfUid (.error e1) (.error e2) = ⟨store, some e2⟩ := by
  unfold finalizeCycle
  rw [hok]
  exact ⟨rfl, rfl⟩

/-- C4 witness: the amended retry behaviour at a concrete two-entry
store. -/
theorem submission_retry_once_witness :
    set_weights (twoStore.map fun p => (p.1, p.2.score)) none = .ok [(2, 1)] ∧
    (finalizeCycle twoStore none (.error "x") (.ok ()) = ⟨[], none⟩ ∧
      finalizeCycle twoStore none (.error "x") (.error "y") = ⟨twoStore, some "y"⟩) :=
  ⟨by with_unfolding_all decide,
    submission_retry_once twoStore none "x" "y" [(2, 1)] (by with_unfolding_all decide)⟩

/-! ### sigmoid and normalization analysis -/

lemma exceptBind_ok {α β : Type} (a : α) (f : α → Except String β) :
    Except.bind (.ok a) f = f a := rfl

lemma sigmoid_pos (x : ℚ) : 0 < sigmoid x := by
  unfold sigmoid
  have hd : 0 < 2 * (1 + |x|) := by positivity
  have h1 : -(1 + |x|) < x := by
    have h2 := neg_abs_le x
    linarith
  have h2 : -(1/2 : ℚ) < x / (2 * (1 + |x|)) := by
    rw [lt_div_iff₀ hd]
    have he : -(1/2 : ℚ) * (2 * (1 + |x|)) = -(1 + |x|) := by ring
    rw [he]
    exact h1
  linarith

lemma core_frac_mono (x y : ℚ) (h : x < y) : x / (1 + |x|) < y / (1 + |y|) := by
  have hx : 0 < 1 + |x| := by positivity
  have hy : 0 < 1 + |y| := by positivity
  rw [div_lt_div_iff₀ hx hy]
  rcases le_or_lt 0 x with hx0 | hx0
  · have hy0 : 0 < y := lt_of_le_of_lt hx0 h
    rw [abs_of_nonneg hx0, abs_of_pos hy0]
    nlinarith
  · rcases le_or_lt y 0 with hy0 | hy0
    · rw [abs_of_neg hx0, abs_of_nonpos hy0]
      nlinarith
    · have h1 : x * (1 + |y|) < 0 := mul_neg_of_neg_of_pos hx0 (by positivity)
      have h2 : 0 < y * (1 + |x|) := mul_pos hy0 (by positivity)
      linarith

lemma sigmoid_strictMono (x y : ℚ) (h : x < y) : sigmoid x < sigmoid y := by
  unfold sigmoid
  have hc := core_frac_mono x y h
  have hx : x / (2 * (1 + |x|)) = x / (1 + |x|) / 2 := by
    rw [div_div, mul_comm]
  have hy : y / (2 * (1 + |y|)) = y / (1 + |y|) / 2 := by
    rw [div_div, mul_comm]
  rw [hx, hy]
  linarith

lemma affine_norm_mono (mn mx s1 s2 : ℚ) (h : mn < mx) (hs : s1 < s2) :
    (s1 - mn) / (mx - mn) < (s2 - mn) / (mx - mn) := by
  have hd : 0 < mx - mn := sub_pos.mpr h
  rw [div_lt_div_iff₀ hd hd]
  exact mul_lt_mul_of_pos_right (by linarith) hd

lemma scale_budget_mono (S x y : ℚ) (hS : 0 < S) (h : x < y) :
    x * 1000 / S < y * 1000 / S := by
  rw [div_lt_div_iff₀ hS hS]
  have hxy : x * 1000 < y * 1000 := by nlinarith
  exact mul_lt_mul_of_pos_right hxy hS

lemma normalize_scores_map (l : List ℚ) (mn mx : ℚ)
    (hmn : listMin l = some mn) (hmx : listMax l = some mx) (h : mn < mx) :
    normalize_scores l false = .ok (l.map fun s => (s - mn) / (mx - mn)) := by
  simp [normalize_scores, hmn, hmx, ne_of_lt h]

lemma normalize_scores_const (l : List ℚ) (c : ℚ) (hne : l ≠ []) (h : ∀ y ∈ l, y = c) :
    normalize_scores l false = .ok (List.replicate l.length 1) := by
  simp [normalize_scores, listMin_const l c hne h, listMax_const l c hne h]

lemma normalize_scores_nonneg (l out : List ℚ)
    (hok : normalize_scores l false = .ok out) : ∀ v ∈ out, 0 ≤ v := by
  cases l with
  | nil => cases hok
  | cons x xs =>
    have hmn : listMin (x :: xs) = some (xs.foldl min x) := rfl
    have hmx : listMax (x :: xs) = some (xs.foldl max x) := rfl
    by_cases heq : xs.foldl min x = xs.foldl max x
    · rw [show normalize_scores (x :: xs) false = .ok (List.replicate (x :: xs).length 1) by
        simp [normalize_scores, hmn, hmx, heq]] at hok
      intro v hv
      cases hok with
      | refl =>
        have := List.eq_of_mem_replicate hv
        rw [this]
        norm_num
    · have hlt : xs.foldl min x < xs.foldl max x := by
        rcases lt_or_eq_of_le
          (le_trans (foldl_min_le_start xs x) (le_foldl_max_start xs x)) with hl | he
        · exact hl
        · exact absurd he heq
      rw [normalize_scores_map (x :: xs) _ _ hmn hmx hlt] at hok
      intro v hv
      cases hok with
      | refl =>
        obtain ⟨s, hs, hv⟩ := List.mem_map.mp hv
        rw [← hv]
        have h1 : xs.foldl min x ≤ s := listMin_le (x :: xs) _ hmn s hs
        exact div_nonneg (by linarith) (by linarith)

lemma alookup_not_mem_keys {α : Type} (l : List (Nat × α)) (u : Nat)
    (h : ∀ p ∈ l, p.1 ≠ u) : alookup l u = none := by
  induction l with
  | nil => rfl
  | cons p t ih =>
    rw [alookup, if_neg (h p (List.mem_cons_self p t))]
    exact ih (fun p' hp' => h p' (List.mem_cons.mpr (Or.inr hp')))

lemma alookup_map_filter (s_dict : List (Nat × ℚ)) (F : ℚ → ℚ) (q : Nat × ℚ → Bool)
    (a : Nat) (va : ℚ) (hnd : (s_dict.map Prod.fst).Nodup) (ha : (a, va) ∈ s_dict) :
    alookup ((s_dict.map fun p => (p.1, F p.2)).filter q) a
      = if q (a, F va) = true then some (F va) else none := by
  induction s_dict with
  | nil => cases ha
  | cons p t ih =>
    have hnd2 : p.1 ∉ t.map Prod.fst ∧ (t.map Prod.fst).Nodup := by
      rw [List.map_cons] at hnd
      exact List.nodup_cons.mp hnd
    rcases List.mem_cons.mp ha with he | ht
    · have hp : p = (a, va) := he.symm
      subst hp
      simp only [List.map_cons, List.filter_cons]
      cases hq : q (a, F va) with
      | true => simp [alookup]
      | false =>
        simp only [Bool.false_eq_true, if_false]
        apply alookup_not_mem_keys
        intro pp hpp hc
        obtain ⟨x, hx, hxe⟩ := List.mem_map.mp (List.mem_of_mem_filter hpp)
        have hmem : a ∈ t.map Prod.fst := by
          rw [List.mem_map]
          exact ⟨x, hx, by rw [← hc, ← hxe]⟩
        exact hnd2.1 hmem
    · have hpa : p.1 ≠ a := by
        intro hc
        apply hnd2.1
        rw [hc]
        exact List.mem_map_of_mem Prod.fst ht
      simp only [List.map_cons, List.filter_cons]
      cases hq : q (p.1, F p.2) with
      | true =>
        simp only [if_true, alookup, if_neg hpa]
        exact ih hnd2.2 ht
      | false =>
        simp only [Bool.false_eq_true, if_false]
        exact ih hnd2.2 ht

lemma rank_order_core (s_dict : List (Nat × ℚ)) (F : ℚ → ℚ) (q : Nat × ℚ → Bool)
    (a b : Nat) (ra rb : ℚ) (hnd : (s_dict.map Prod.fst).Nodup)
    (ha : (a, ra) ∈ s_dict) (hb : (b, rb) ∈ s_dict)
    (hqa : q (a, F ra) = true)
    (hFlt : F rb < F ra) (hFpos : 0 < F ra) :
    weightOf ((s_dict.map fun p => (p.1, F p.2)).filter q) b
      < weightOf ((s_dict.map fun p => (p.1, F p.2)).filter q) a := by
  rw [weightOf, weightOf, alookup_map_filter s_dict F q a ra hnd ha,
      alookup_map_filter s_dict F q b rb hnd hb, if_pos hqa]
  by_cases hqb : q (b, F rb) = true
  · rw [if_pos hqb]
    simpa using hFlt
  · rw [if_neg hqb]
    simpa using hFpos

lemma exceptBind_error {α β : Type} (e : String) (f : α → Except String β) :
    Except.bind (.error e) f = .error e := rfl

lemma weighted_of_map (s_dict : List (Nat × ℚ)) (g : ℚ → ℚ) :
    weighted_of s_dict ((s_dict.map Prod.snd).map g)
      = s_dict.map fun p =>
          (p.1, sigmoid (g p.2) * 1000 /
            ((s_dict.map fun p => sigmoid (g p.2)).sum)) := by
  have hz : (s_dict.map Prod.fst).zip ((s_dict.map Prod.snd).map g)
      = s_dict.map (fun p => (p.1, g p.2)) := by
    rw [List.map_map, List.zip_map']
    rfl
  unfold weighted_of sigmoid_rewards
  rw [hz]
  simp only [List.map_map]
  rfl

/-! ### C5 -/

set_option maxRecDepth 40000 in
/-- C5: evaluation at the failing input.  With all raw scores equal and
the validator uid 1 supplied, set_weights returns the degenerate
all-ones weight map with uid 1 still inside it: the deletion of lines
451-452 tests membership of the int self.uid in the str(uid)-keyed
weight dict and never fires (see drop_self), so the selfId key is
returned even though it was supplied.  The other conjuncts of the claim
hold at this input: every returned weight equals 1, hence is
nonnegative, and all surviving workers receive equal weight. -/
theorem self_uid_not_removed :
    set_weights [(1, (2:ℚ)), (2, 2)] (some 1) = .ok [(1, 1), (2, 1)] ∧
    (1 : Nat) ∈ [((1:Nat), (1:ℚ)), (2, 1)].map Prod.fst ∧
    (∀ p ∈ [((1:Nat), (1:ℚ)), (2, 1)], 0 ≤ p.2 ∧ p.2 = 1) := by
  refine ⟨by with_unfolding_all decide, by decide, by decide⟩

/-! ### C6 -/

/-- C6: set_weights preserves strict rank order: when worker a has a
strictly larger raw score than worker b and a is not the excluded self
uid (a proviso mirroring the surviving-workers scope of the spec; under
the dead self-deletion of drop_self it is never exercised), the weight
a receives in the output map is strictly larger than the weight of b
(reading 0 for a worker dropped from the map, which can only happen to
b here, b being the minimum).  Every stage - min-max normalization, the
strictly increasing bounded squashing, the positive rescaling to the
1000 budget and the final min-max normalization - preserves the strict
order. -/
theorem set_weights_rank_order (s_dict : List (Nat × ℚ)) (selfUid : Option Nat)
    (out : List (Nat × ℚ)) (a b : Nat) (ra rb : ℚ)
    (hnd : (s_dict.map Prod.fst).Nodup)
    (ha : (a, ra) ∈ s_dict) (hb : (b, rb) ∈ s_dict)
    (hab : rb < ra) (hself : selfUid ≠ some a)
    (hok : set_weights s_dict selfUid = .ok out) :
    weightOf out b < weightOf out a := by
  have hra : ra ∈ s_dict.map Prod.snd := List.mem_map_of_mem Prod.snd ha
  have hrb : rb ∈ s_dict.map Prod.snd := List.mem_map_of_mem Prod.snd hb
  have hvne : s_dict.map Prod.snd ≠ [] := List.ne_nil_of_mem hra
  obtain ⟨mn, hmn⟩ := listMin_isSome _ hvne
  obtain ⟨mx, hmx⟩ := listMax_isSome _ hvne
  have hmnmx : mn < mx :=
    lt_of_le_of_lt (listMin_le _ _ hmn rb hrb)
      (lt_of_lt_of_le hab (le_listMax _ _ hmx ra hra))
  have hn1 := normalize_scores_map (s_dict.map Prod.snd) mn mx hmn hmx hmnmx
  have hw := weighted_of_map s_dict (fun s => (s - mn) / (mx - mn))
  have hSpos : 0 < (List.map (fun p => sigmoid ((p.2 - mn) / (mx - mn))) s_dict).sum := by
    apply List.sum_pos
    · intro x hx
      obtain ⟨pp, hpp, he⟩ := List.mem_map.mp hx
      rw [← he]
      exact sigmoid_pos _
    · exact fun hc => (List.ne_nil_of_mem ha) (List.map_eq_nil_iff.mp hc)
  have hwvne : (s_dict.map fun p => (p.1, sigmoid ((p.2 - mn) / (mx - mn)) * 1000 /
      (List.map (fun p => sigmoid ((p.2 - mn) / (mx - mn))) s_dict).sum)).map Prod.snd ≠ [] := by
    intro hc
    exact (List.ne_nil_of_mem ha)
      (List.map_eq_nil_iff.mp (List.map_eq_nil_iff.mp hc))
  obtain ⟨mn2, hmn2⟩ := listMin_isSome _ hwvne
  obtain ⟨mx2, hmx2⟩ := listMax_isSome _ hwvne
  have hw1a : sigmoid ((ra - mn) / (mx - mn)) * 1000 /
      (List.map (fun p => sigmoid ((p.2 - mn) / (mx - mn))) s_dict).sum
      ∈ (s_dict.map fun p => (p.1, sigmoid ((p.2 - mn) / (mx - mn)) * 1000 /
        (List.map (fun p => sigmoid ((p.2 - mn) / (mx - mn))) s_dict).sum)).map Prod.snd :=
    List.mem_map_of_mem Prod.snd (List.mem_map_of_mem _ ha)
  have hw1b : sigmoid ((rb - mn) / (mx - mn)) * 1000 /
      (List.map (fun p => sigmoid ((p.2 - mn) / (mx - mn))) s_dict).sum
      ∈ (s_dict.map fun p => (p.1, sigmoid ((p.2 - mn) / (mx - mn)) * 1000 /
        (List.map (fun p => sigmoid ((p.2 - mn) / (mx - mn))) s_dict).sum)).map Prod.snd :=
    List.mem_map_of_mem Prod.snd (List.mem_map_of_mem _ hb)
  have hE2mono : sigmoid ((rb - mn) / (mx - mn)) * 1000 /
      (List.map (fun p => sigmoid ((p.2 - mn) / (mx - mn))) s_dict).sum
      < sigmoid ((ra - mn) / (mx - mn)) * 1000 /
      (List.map (fun p => sigmoid ((p.2 - mn) / (mx - mn))) s_dict).sum :=
    scale_budget_mono _ _ _ hSpos
      (sigmoid_strictMono _ _ (affine_norm_mono mn mx rb ra hmnmx hab))
  have hminb := listMin_le _ mn2 hmn2 _ hw1b
  have hmaxa := le_listMax _ mx2 hmx2 _ hw1a
  have hlt2 : mn2 < mx2 :=
    lt_of_le_of_lt hminb (lt_of_lt_of_le hE2mono hmaxa)
  have hn2 := normalize_scores_map
    ((s_dict.map fun p => (p.1, sigmoid ((p.2 - mn) / (mx - mn)) * 1000 /
      (List.map (fun p => sigmoid ((p.2 - mn) / (mx - mn))) s_dict).sum)).map Prod.snd)
    mn2 mx2 hmn2 hmx2 hlt2
  have hzip : ((s_dict.map fun p => (p.1, sigmoid ((p.2 - mn) / (mx - mn)) * 1000 /
        (List.map (fun p => sigmoid ((p.2 - mn) / (mx - mn))) s_dict).sum)).map Prod.fst).zip
      (((s_dict.map fun p => (p.1, sigmoid ((p.2 - mn) / (mx - mn)) * 1000 /
        (List.map (fun p => sigmoid ((p.2 - mn) / (mx - mn))) s_dict).sum)).map Prod.snd).map
        (fun s => (s - mn2) / (mx2 - mn2)))
      = s_dict.map fun p => (p.1, (sigmoid ((p.2 - mn) / (mx - mn)) * 1000 /
          (List.map (fun p => sigmoid ((p.2 - mn) / (mx - mn))) s_dict).sum - mn2)
          / (mx2 - mn2)) := by
    simp only [List.map_map]
    rw [List.zip_map']
    rfl
  have key : set_weights s_dict selfUid
      = .ok (drop_self selfUid ((s_dict.map fun p => (p.1,
          (sigmoid ((p.2 - mn) / (mx - mn)) * 1000 /
            (List.map (fun p => sigmoid ((p.2 - mn) / (mx - mn))) s_dict).sum - mn2)
            / (mx2 - mn2))).filter fun p => p.2 != 0)) := by
    unfold set_weights
    simp only [hn1, exceptBind_ok]
    rw [hw, hn2]
    simp only [exceptBind_ok]
    rw [hzip]
  rw [key] at hok
  injection hok with hout
  subst hout
  have hFpos : 0 < (sigmoid ((ra - mn) / (mx - mn)) * 1000 /
      (List.map (fun p => sigmoid ((p.2 - mn) / (mx - mn))) s_dict).sum - mn2)
      / (mx2 - mn2) :=
    div_pos (by linarith) (by linarith)
  have hFlt : (sigmoid ((rb - mn) / (mx - mn)) * 1000 /
      (List.map (fun p => sigmoid ((p.2 - mn) / (mx - mn))) s_dict).sum - mn2)
      / (mx2 - mn2)
      < (sigmoid ((ra - mn) / (mx - mn)) * 1000 /
      (List.map (fun p => sigmoid ((p.2 - mn) / (mx - mn))) s_dict).sum - mn2)
      / (mx2 - mn2) :=
    affine_norm_mono mn2 mx2 _ _ hlt2 hE2mono
  simp only [drop_self]
  exact rank_order_core s_dict
    (fun v => (sigmoid ((v - mn) / (mx - mn)) * 1000 /
      (List.map (fun p => sigmoid ((p.2 - mn) / (mx - mn))) s_dict).sum - mn2)
      / (mx2 - mn2))
    (fun p => p.2 != 0) a b ra rb hnd ha hb
    (bne_iff_ne.mpr (ne_of_gt hFpos)) hFlt hFpos

set_option maxRecDepth 40000 in
/-- C6 witness: two workers with raw scores 0 and 1; the higher scored
worker ends with weight 1, the lower is dropped by the zero filter and
reads as weight 0. -/
theorem set_weights_rank_order_witness :
    (([((1:Nat), (0:ℚ)), (2, 1)].map Prod.fst).Nodup ∧
      ((2:Nat), (1:ℚ)) ∈ [((1:Nat), (0:ℚ)), (2, 1)] ∧
      ((1:Nat), (0:ℚ)) ∈ [((1:Nat), (0:ℚ)), (2, 1)] ∧
      (0:ℚ) < 1 ∧ (none : Option Nat) ≠ some 2 ∧
      set_weights [((1:Nat), (0:ℚ)), (2, 1)] none = .ok [(2, 1)]) ∧
    weightOf [((2:Nat), (1:ℚ))] 1 < weightOf [((2:Nat), (1:ℚ))] 2 :=
  ⟨⟨by decide, by decide, by decide, by decide, by decide,
      by with_unfolding_all decide⟩,
    set_weights_rank_order [((1:Nat), (0:ℚ)), (2, 1)] none [(2, 1)] 2 1 1 0
      (by decide) (by decide) (by decide) (by decide) (by decide)
      (by with_unfolding_all decide)⟩
